import Mathlib

/-!
Verification of the KaguyaRs combinator macros (`src/basic_fn/mac.rs`).

The source file consists of Rust `macro_rules!` declarations.  Each macro is
embedded shallowly: a macro whose expansion is a closure becomes a Lean
function, and macro-time arity dispatch over a comma-separated argument list
becomes a Lean function on a `List`, returning `Option` so that argument
shapes matched by no macro rule (which are compile-time, i.e. construction
time, errors in Rust) are modelled by `none`.

The underlying base functions (`map`, `filter`, `foldl`, `foldr`, ... from
`basic_fn::fun`) are not part of the given sources; where a claim needs
them they are modelled from the specification, and marked as such.
-/

namespace KaguyaRs

/-! ## pipe! and compose!

`pipe!` (mac.rs lines 43-55):
```
macro_rules! pipe  {
    ($($f:expr),*) => {
        |v| {pipe!(@NEXT v, $($f),*) }
    };
    (@NEXT $v:expr,$f:expr,$($rest:expr),*) => {
        pipe!(@NEXT $f($v), $($rest),*)
    };
    (@NEXT $v:expr,$last:expr) => {
        $last($v)
    };
}
```
The `@NEXT` helper requires at least one function token; with zero
functions the inner `pipe!(@NEXT v,)` call matches no rule and expansion
fails, so `pipe!()` is rejected when the pipeline is constructed.
-/

/-- Embedding of the `@NEXT` rules of `pipe!`: the value so far, the next
function, and the remaining functions.  `pipeNext v f []` is the rule
`(@NEXT $v,$last) => $last($v)`; `pipeNext v f (g :: rest)` is the rule
`(@NEXT $v,$f,$($rest),*) => pipe!(@NEXT $f($v), $($rest),*)`. -/
def pipeNext {α : Type} (v : α) (f : α → α) : List (α → α) → α
  | [] => f v
  | g :: rest => pipeNext (f v) g rest

/-- The closure `|v| pipe!(@NEXT v, f, fs...)` produced by `pipe!` for a
non-empty argument list with head `f` and tail `fs`. -/
def pipeList {α : Type} (f : α → α) (fs : List (α → α)) : α → α :=
  fun v => pipeNext v f fs

/-- Embedding of the surface macro `pipe!` on its comma-separated argument
list.  An empty list produces `pipe!(@NEXT v,)`, which matches no rule of
the macro: a construction-time error, modelled as `none`. -/
def pipeMac {α : Type} : List (α → α) → Option (α → α)
  | [] => none
  | f :: fs => some (pipeList f fs)

/-!
`compose!` (mac.rs lines 158-168):
```
macro_rules! compose {
    ($f:expr,$($fs:expr),*) => {
        compose!(@NEXT [$f],$($fs),*)
    };
    (@NEXT [$($fs:expr),*],$f:expr,$($remain_fs:expr),*) => {
        compose!(@NEXT [$f,$($fs),*],$($remain_fs),*)
    };
    (@NEXT [$($fs:expr),*],$f:expr) => {
        pipe!($f,$($fs),*)
    };
}
```
The entry rule demands a literal comma after `$f`, so `compose!(f)` with a
single argument matches no rule and fails to expand (a construction-time
error), and `compose!()` likewise; at least two arguments are required.
-/

/-- Embedding of the `@NEXT` rules of `compose!`: `acc` is the reversed
prefix accumulated so far (the bracketed list), `f` the next function,
then the remaining functions.  The base rule hands the reversed list to
`pipe!`. -/
def composeNext {α : Type} (acc : List (α → α)) (f : α → α) :
    List (α → α) → (α → α)
  | [] => pipeList f acc
  | g :: rest => composeNext (f :: acc) g rest

/-- Embedding of the surface macro `compose!` on its argument list.  Lists
of length 0 or 1 match no rule of the macro (the entry rule requires
`$f:expr,` followed by at least one more expression), hence `none`:
rejected at construction. -/
def composeMac {α : Type} : List (α → α) → Option (α → α)
  | f :: g :: rest => some (composeNext [f] g rest)
  | _ => none

/-- Specification-side description of left-to-right application:
apply the functions of the list to `v`, first element first. -/
def chainApply {α : Type} (v : α) (fs : List (α → α)) : α :=
  fs.foldl (fun a g => g a) v

theorem pipeNext_eq_chainApply {α : Type} :
    ∀ (fs : List (α → α)) (f : α → α) (v : α),
      pipeNext v f fs = chainApply v (f :: fs)
  | [], f, v => rfl
  | g :: rest, f, v => by
      have ih := pipeNext_eq_chainApply rest g (f v)
      simp only [pipeNext, chainApply, List.foldl] at ih ⊢
      exact ih

theorem composeNext_eq {α : Type} :
    ∀ (l : List (α → α)) (f : α → α) (acc : List (α → α)) (v : α),
      composeNext acc f l v = chainApply v (l.reverse ++ f :: acc)
  | [], f, acc, v => by
      simpa [composeNext, pipeList] using pipeNext_eq_chainApply acc f v
  | g :: rest, f, acc, v => by
      have ih := composeNext_eq rest g (f :: acc) v
      simp only [composeNext] at ih ⊢
      rw [ih]
      simp [List.append_assoc]

/-- C1: for every non-empty list of transformers `f :: fs` and every input
`v`, `pipe!` constructs a transformer (its expansion succeeds), and that
transformer applies the stages in left-to-right listed order: the first
listed transformer is applied first, so the result is the left fold of
function application over the listed stages. -/
theorem pipe_applies_left_to_right {α : Type}
    (f : α → α) (fs : List (α → α)) (v : α) :
    pipeMac (f :: fs) = some (pipeList f fs) ∧
    pipeList f fs v = (f :: fs).foldl (fun a g => g a) v := by
  refine ⟨rfl, ?_⟩
  simpa [chainApply] using pipeNext_eq_chainApply fs f v

/-- Counterexample to C2 as stated: `compose!` does not accept every
non-empty list of transformers.  On the one-element list containing the
doubling function, no rule of `compose!` matches (the entry rule requires a
comma after its first expression), so no transformer is constructed at all
and `compose(f1)(v) = f1(v)` has no instance at k = 1. -/
theorem compose_rejects_singleton_double :
    composeMac [fun n : Int => n * 2] = none := rfl

/-- C2 (amended): for every list of at least two transformers
`f :: g :: rest`, `compose!` constructs a transformer, that transformer
applies the stages in right-to-left listed order (the result is the right
fold of function application over the listed stages, i.e.
`compose(f1,…,fk)(v) = f1(f2(…(fk(v))))`), and it agrees pointwise with
`pipe!` on the reversed list; one-element lists are rejected at
construction. -/
theorem compose_applies_right_to_left {α : Type}
    (f g : α → α) (rest : List (α → α)) (v : α) :
    composeMac (f :: g :: rest) = some (composeNext [f] g rest) ∧
    composeNext [f] g rest v = (f :: g :: rest).foldr (fun h a => h a) v ∧
    Option.map (fun h => h v) (composeMac (f :: g :: rest)) =
      Option.map (fun h => h v) (pipeMac (f :: g :: rest).reverse) := by
  have hrev : (f :: g :: rest).reverse = rest.reverse ++ [g, f] := by
    simp
  have hc : composeNext [f] g rest v =
      chainApply v ((f :: g :: rest).reverse) := by
    rw [composeNext_eq rest g [f] v, hrev]
  refine ⟨rfl, ?_, ?_⟩
  · rw [hc]
    simp [chainApply, List.foldl_reverse]
  · have hne : (f :: g :: rest).reverse ≠ [] := by simp
    obtain ⟨p, ps, hps⟩ : ∃ p ps, (f :: g :: rest).reverse = p :: ps :=
      List.exists_cons_of_ne_nil hne
    rw [hps]
    show some (composeNext [f] g rest v) = some (pipeList p ps v)
    rw [hc, hps]
    exact congrArg some (pipeNext_eq_chainApply ps p v).symm

/-- Counterexample to C8 as stated: `compose!` does not accept every
non-empty list of transformers (any k ≥ 1).  The one-element list
containing the successor function matches no rule of the macro, so the
invocation is rejected at construction. -/
theorem compose_rejects_singleton_succ :
    composeMac [fun n : Int => n + 1] = none := rfl

/-- C8 (amended): `pipe!` accepts exactly the non-empty lists of
transformers (any k ≥ 1), while `compose!` accepts exactly the lists with
at least two transformers (k ≥ 2); every other argument shape — the
zero-transformer invocation for both, and the one-transformer invocation
for `compose!` — matches no macro rule, so it is rejected when the
pipeline is constructed rather than being deferred to evaluation. -/
theorem pipe_compose_construction_arity {α : Type} (fs : List (α → α)) :
    ((pipeMac fs).isSome ↔ fs ≠ []) ∧
    ((composeMac fs).isSome ↔ 2 ≤ fs.length) := by
  constructor
  · cases fs <;> simp [pipeMac]
  · match fs with
    | [] => simp [composeMac]
    | [f] => simp [composeMac]
    | f :: g :: rest => simp [composeMac]

/-! ## Statelessness of constructed pipelines

The expansion of `pipe!` is the closure `|v| { ... }`, a non-`move` `Fn`
closure whose environment is exactly the listed stage expressions; its body
only calls the stages on the flowing value and writes to nothing.  We model
an invocation as returning the output together with the pipeline state
after the call, which — since the closure body mutates nothing — is the
captured stages unchanged. -/

/-- A constructed pipeline: the captured stages (at least one, as enforced
at construction). -/
structure Pipeline (α : Type) where
  first : α → α
  rest : List (α → α)

/-- One invocation of the pipeline closure: the output value (the body
`pipe!(@NEXT v, stages...)`) together with the pipeline state after the
call.  The closure body only reads its captures, so the state after the
call is the state before it. -/
def Pipeline.run {α : Type} (p : Pipeline α) (v : α) : α × Pipeline α :=
  (pipeNext v p.first p.rest, p)

/-- C9: invoking a constructed pipeline twice on the same input yields
identical output both times, and the invocation leaves the pipeline state
(its captured stages) unchanged: the output is a deterministic function of
the input. -/
theorem pipeline_invocation_stateless {α : Type} (p : Pipeline α) (v : α) :
    ((p.run v).2.run v).1 = (p.run v).1 ∧ (p.run v).2 = p :=
  ⟨rfl, rfl⟩

/-! ## ls! — list comprehension

`ls!` (mac.rs lines 78-97): the full rule
`($mapper:expr;$it:expr=>$filterer:expr)` expands to
```
let mut ret = Vec::new();
for i in $it {
    if $filterer(i) {
        ret.push($mapper(i));
    }
}
ret
```
and the three reduced rules delegate to it with `|x| x` for a missing
mapper and `|_| true` for a missing filterer. -/

/-- Embedding of the full form of `ls!`: a single traversal of the source,
pushing `mapper i` onto the result whenever `filterer i` holds. -/
def lsFull {T U : Type} (mapper : T → U) (filterer : T → Bool)
    (it : List T) : List U :=
  it.foldl (fun ret i => if filterer i then ret ++ [mapper i] else ret) []

/-- The rule `($it:expr)` of `ls!`: `ls![|x| x;$it=>|_|true]`. -/
def lsBare {T : Type} (it : List T) : List T :=
  lsFull (fun x => x) (fun _ => true) it

/-- The rule `($mapper:expr;$it:expr)` of `ls!`:
`ls![$mapper;$it=>|_| true]`. -/
def lsMapOnly {T U : Type} (mapper : T → U) (it : List T) : List U :=
  lsFull mapper (fun _ => true) it

/-- The rule `($it:expr=>$filterer:expr)` of `ls!`:
`ls![|x| x;$it=>$filterer]`. -/
def lsFilterOnly {T : Type} (filterer : T → Bool) (it : List T) : List T :=
  lsFull (fun x => x) filterer it

theorem lsFull_go {T U : Type} (mapper : T → U) (filterer : T → Bool) :
    ∀ (it : List T) (acc : List U),
      it.foldl (fun ret i => if filterer i then ret ++ [mapper i] else ret)
          acc
        = acc ++ (it.filter filterer).map mapper
  | [], acc => by simp
  | i :: it, acc => by
      by_cases h : filterer i
      · simp only [List.foldl, h, if_pos, List.filter_cons_of_pos h,
          List.map]
        rw [lsFull_go mapper filterer it (acc ++ [mapper i])]
        simp
      · have hb : filterer i = false := by
          simpa using h
        simp only [List.foldl, hb, if_neg, Bool.false_eq_true,
          not_false_iff, List.filter_cons_of_neg, List.map]
        rw [lsFull_go mapper filterer it acc]

/-- C5: the comprehension with both a mapper and a filterer equals
filtering the source by the predicate and then mapping the survivors: it
produces exactly `mapper x` for the `x` satisfying `filterer`, in source
order, and the predicate is evaluated on the original element `x`, never
on the mapped value. -/
theorem ls_eq_filter_then_map {T U : Type} (mapper : T → U)
    (filterer : T → Bool) (it : List T) :
    lsFull mapper filterer it = (it.filter filterer).map mapper := by
  simpa using lsFull_go mapper filterer it []

/-- C6: all four surface forms of `ls!` reduce to the same single fused
traversal `lsFull`, the omitted mapper defaulting to the identity and the
omitted filterer defaulting to the always-true predicate; in particular
the bare form materializes the sequence unchanged. -/
theorem ls_forms_reduce_to_full {T U : Type} (mapper : T → U)
    (filterer : T → Bool) (it : List T) :
    lsMapOnly mapper it = lsFull mapper (fun _ => true) it ∧
    lsFilterOnly filterer it = lsFull (fun x => x) filterer it ∧
    lsBare it = lsFull (fun x => x) (fun _ => true) it ∧
    lsBare it = it := by
  refine ⟨rfl, rfl, rfl, ?_⟩
  have h := lsFull_go (fun x : T => x) (fun _ => true) it []
  simpa [lsBare, lsFull] using h

/-! ## foldl! and foldr! — curried fold entry points

`foldl!` (mac.rs lines 103-113) and `foldr!` (lines 119-129) each have
three rules:
```
($init:expr,$f:expr) => { move |it| foldl($init,$f,it) };
($init:expr)         => { move |f,it| foldl($init,f,it) };
($init:expr=>)       => { move |f| (move |it| foldl($init,f,it)) };
```
The base functions `foldl` and `foldr` live in `basic_fn::fun`, which is
not among the given sources; they are modelled from the specification
below. -/

/-- Modelled from the spec: the base `foldl` of `basic_fn::fun` (not in
the given sources).  Left fold, combiner `R -> T -> R`,
`foldl(init, f, [e1,…,en]) = f(…f(f(init,e1),e2)…,en)`; an empty sequence
returns `init` unchanged. -/
def foldl {R T : Type} (init : R) (f : R → T → R) : List T → R
  | [] => init
  | e :: rest => foldl (f init e) f rest

/-- Modelled from the spec: the base `foldr` of `basic_fn::fun` (not in
the given sources).  Right fold with element-then-accumulator combiner,
`foldr(init, f, [e1,…,en]) = f(e1, f(e2, …f(en, init)…))`; an empty
sequence returns `init` unchanged. -/
def foldr {R T : Type} (init : R) (f : T → R → R) : List T → R
  | [] => init
  | e :: rest => f e (foldr init f rest)

/-- The rule `($init:expr,$f:expr)` of `foldl!`: `init` and the combiner
supplied, the returned transformer awaits only the sequence. -/
def foldlMacInitF {R T : Type} (init : R) (f : R → T → R) : List T → R :=
  fun it => foldl init f it

/-- The rule `($init:expr)` of `foldl!`: only `init` supplied, the
returned closure `move |f,it| ...` awaits the combiner and the sequence
together (a single two-argument invocation, modelled as a pair). -/
def foldlMacInit {R T : Type} (init : R) : ((R → T → R) × List T) → R :=
  fun p => foldl init p.1 p.2

/-- The rule `($init:expr=>)` of `foldl!`: only `init` supplied, the
returned closure `move |f| (move |it| ...)` awaits the combiner, then the
sequence, one at a time. -/
def foldlMacArrow {R T : Type} (init : R) : (R → T → R) → List T → R :=
  fun f => fun it => foldl init f it

/-- The rule `($init:expr,$f:expr)` of `foldr!`. -/
def foldrMacInitF {R T : Type} (init : R) (f : T → R → R) : List T → R :=
  fun it => foldr init f it

/-- The rule `($init:expr)` of `foldr!`: awaits combiner and sequence
together. -/
def foldrMacInit {R T : Type} (init : R) : ((T → R → R) × List T) → R :=
  fun p => foldr init p.1 p.2

/-- The rule `($init:expr=>)` of `foldr!`: awaits combiner, then
sequence. -/
def foldrMacArrow {R T : Type} (init : R) : (T → R → R) → List T → R :=
  fun f => fun it => foldr init f it

/-- C3: each of the three curried entry points of `foldl!` — supplying
`init` and the combiner (awaiting the sequence), supplying only `init`
(awaiting combiner and sequence together), and the `init =>` form
supplying neither combiner nor sequence yet (awaiting the combiner, then
the sequence) — yields, once all arguments are supplied, the same result
as the fully-applied base fold; likewise for `foldr!`. -/
theorem fold_curried_forms_agree {R T : Type} (init : R)
    (fl : R → T → R) (fr : T → R → R) (it : List T) :
    foldlMacInitF init fl it = foldl init fl it ∧
    foldlMacInit init (fl, it) = foldl init fl it ∧
    foldlMacArrow init fl it = foldl init fl it ∧
    foldrMacInitF init fr it = foldr init fr it ∧
    foldrMacInit init (fr, it) = foldr init fr it ∧
    foldrMacArrow init fr it = foldr init fr it :=
  ⟨rfl, rfl, rfl, rfl, rfl, rfl⟩

/-! ## Curried adapters: map!, filter!, filter_not!, skip!, take!

Each of these macros (mac.rs lines 12-16, 135-139, 145-149, 174-178,
184-188) has the single rule
`($f:expr) => { move |it| base($f, it) }`, capturing the configuration
argument and awaiting the sequence.  The base operations live in
`basic_fn::fun`, not among the given sources; they are modelled from the
specification (single-pass `map(f, seq)`, `filter(f, seq)`,
`filter_not(f, seq)`, `skip(n, seq)`, `take(n, seq)`). -/

/-- Modelled from the spec: the base `map(f, seq)` of `basic_fn::fun`
(not in the given sources). -/
def map {T U : Type} (f : T → U) (it : List T) : List U :=
  it.map f

/-- Modelled from the spec: the base `filter(f, seq)` of `basic_fn::fun`
(not in the given sources). -/
def filter {T : Type} (f : T → Bool) (it : List T) : List T :=
  it.filter f

/-- Modelled from the spec: the base `filter_not(f, seq)` of
`basic_fn::fun` (not in the given sources): keeps the elements on which
the predicate is false. -/
def filter_not {T : Type} (f : T → Bool) (it : List T) : List T :=
  it.filter (fun x => !(f x))

/-- Modelled from the spec: the base `skip(n, seq)` of `basic_fn::fun`
(not in the given sources): drops the first `n` elements. -/
def skip {T : Type} (n : Nat) (it : List T) : List T :=
  it.drop n

/-- Modelled from the spec: the base `take(n, seq)` of `basic_fn::fun`
(not in the given sources): keeps the first `n` elements. -/
def take {T : Type} (n : Nat) (it : List T) : List T :=
  it.take n

/-- The rule of `map!`: `move |it| map($f, it)`. -/
def mapMac {T U : Type} (f : T → U) : List T → List U :=
  fun it => map f it

/-- The rule of `filter!`: `move |it| filter($f, it)`. -/
def filterMac {T : Type} (f : T → Bool) : List T → List T :=
  fun it => filter f it

/-- The rule of `filter_not!`: `move |it| filter_not($f, it)`. -/
def filterNotMac {T : Type} (f : T → Bool) : List T → List T :=
  fun it => filter_not f it

/-- The rule of `skip!`: `move |it| skip($n, it)`. -/
def skipMac {T : Type} (n : Nat) : List T → List T :=
  fun it => skip n it

/-- The rule of `take!`: `move |it| take($n, it)`. -/
def takeMac {T : Type} (n : Nat) : List T → List T :=
  fun it => take n it

/-- C7: for each curried adapter taking its configuration argument first
(`map!`, `filter!`, `filter_not!`, `skip!`, `take!`), the transformer it
returns, when later invoked with a sequence, produces exactly the result
of the fully-applied base operation with the same arguments in the same
order. -/
theorem curried_adapters_agree_with_base {T U : Type} (f : T → U)
    (p : T → Bool) (n : Nat) (it : List T) :
    mapMac f it = map f it ∧
    filterMac p it = filter p it ∧
    filterNotMac p it = filter_not p it ∧
    skipMac n it = skip n it ∧
    takeMac n it = take n it :=
  ⟨rfl, rfl, rfl, rfl, rfl⟩

/-! ## sum! and product! — variadic aggregation

`sum!` (mac.rs lines 24-34):
```
macro_rules! sum {
    ($i:expr;$j:expr) => {{ sum($i..=$j) }};
    ($i:expr,$($j:expr),*) => { $i + sum!($($j),*) };
    ($i:expr) => { $i };
}
```
`product!` (lines 196-206) mirrors it with `*`.  The variadic list form
is a purely syntactic expansion: `sum!(a,b,c)` expands to the expression
`a + (b + c)` — the nested `sum!` call is one expression unit, so the
expansion is right-nested.  We embed the expansion itself as a binary
expression tree over the operand list, plus its evaluation under `+`
(for `sum!`) and `*` (for `product!`). -/

/-- A binary operator-application tree: the shape of the expression the
variadic `sum!`/`product!` expansion produces (leaves are the operand
expressions, `node` the infix operator application). -/
inductive AExp where
  | atom : Int → AExp
  | node : AExp → AExp → AExp
deriving DecidableEq

/-- Embedding of the variadic-list rules of `sum!` on a non-empty operand
list (head and tail): `sum!(i)` is the operand itself (rule
`($i:expr) => $i`), and `sum!(i, j, rest...)` is
`$i + sum!($j, $rest...)` (rule `($i:expr,$($j:expr),*)`). -/
def sumExpand : Int → List Int → AExp
  | i, [] => AExp.atom i
  | i, j :: rest => AExp.node (AExp.atom i) (sumExpand j rest)

/-- Embedding of the variadic-list rules of `product!`, identical in
shape to `sumExpand` (the operator differs only in evaluation). -/
def productExpand : Int → List Int → AExp
  | i, [] => AExp.atom i
  | i, j :: rest => AExp.node (AExp.atom i) (productExpand j rest)

/-- The surface macro `sum!` on its comma-separated operand list: an
empty operand list matches none of the three rules, a compile-time
(construction) error, modelled as `none`. -/
def sumMacList : List Int → Option AExp
  | [] => none
  | i :: rest => some (sumExpand i rest)

/-- The surface macro `product!` on its comma-separated operand list;
an empty operand list matches no rule, modelled as `none`. -/
def productMacList : List Int → Option AExp
  | [] => none
  | i :: rest => some (productExpand i rest)

/-- Evaluation of the expansion with `+` at each `node` (the operator
`sum!` inserts). -/
def evalAdd : AExp → Int
  | AExp.atom n => n
  | AExp.node l r => evalAdd l + evalAdd r

/-- Evaluation of the expansion with `*` at each `node` (the operator
`product!` inserts). -/
def evalMul : AExp → Int
  | AExp.atom n => n
  | AExp.node l r => evalMul l * evalMul r

theorem evalAdd_sumExpand :
    ∀ (rest : List Int) (a : Int),
      evalAdd (sumExpand a rest) = a + rest.sum
  | [], a => by simp [sumExpand, evalAdd]
  | j :: rest, a => by
      simp only [sumExpand, evalAdd, List.sum_cons,
        evalAdd_sumExpand rest j]

theorem evalMul_productExpand :
    ∀ (rest : List Int) (a : Int),
      evalMul (productExpand a rest) = a * rest.prod
  | [], a => by simp [productExpand, evalMul]
  | j :: rest, a => by
      simp only [productExpand, evalMul, List.prod_cons,
        evalMul_productExpand rest j]

/-- Counterexample to C4 as stated: the variadic reduction is not
left-associative.  On the operands `1, 2, 3`, `sum!` expands to the
right-nested expression `1 + (2 + 3)` and not to the left-nested
`(1 + 2) + 3`. -/
theorem sum_expansion_not_left_associative :
    sumExpand 1 [2, 3]
        = AExp.node (AExp.atom 1)
            (AExp.node (AExp.atom 2) (AExp.atom 3)) ∧
    sumExpand 1 [2, 3]
        ≠ AExp.node (AExp.node (AExp.atom 1) (AExp.atom 2))
            (AExp.atom 3) := by
  exact ⟨rfl, by decide⟩

/-- C4 (amended): the variadic list forms of `sum!` and `product!` reduce
their operands one at a time from the left with right-nested operator
application — `sum(a, b, c, …) = a + (b + (c + …))` — the single-operand
base case returning that operand unchanged; the value is the sum
(respectively product) of all operands, `product!` mirroring `sum!` with
multiplication; and the zero-operand list form matches no rule, so it is
rejected. -/
theorem sum_product_variadic {a : Int} {rest : List Int} :
    sumExpand a [] = AExp.atom a ∧
    (∀ (j : Int) (r : List Int),
      sumExpand a (j :: r) = AExp.node (AExp.atom a) (sumExpand j r)) ∧
    evalAdd (sumExpand a rest) = (a :: rest).sum ∧
    evalMul (productExpand a rest) = (a :: rest).prod ∧
    sumMacList [] = none ∧ productMacList [] = none := by
  refine ⟨rfl, fun j r => rfl, ?_, ?_, rfl, rfl⟩
  · rw [evalAdd_sumExpand rest a, List.sum_cons]
  · rw [evalMul_productExpand rest a, List.prod_cons]

/-! ## concat!

`concat!` (mac.rs lines 213-219):
```
macro_rules! concat {
    ($($it:expr);*) => {{
        let mut ret = Vec::new();
        $(ret.extend($it););*
        ret
    }};
}
```
The rule matches any number of `;`-separated sequences, including zero,
and eagerly extends a fresh `Vec` with each in listed order. -/

/-- Embedding of `concat!`: starting from an empty result, extend it with
each listed sequence in order. -/
def concatMac {T : Type} (its : List (List T)) : List T :=
  its.foldl (fun ret it => ret ++ it) []

theorem concatMac_go {T : Type} :
    ∀ (its : List (List T)) (acc : List T),
      its.foldl (fun ret it => ret ++ it) acc = acc ++ its.flatten
  | [], acc => by simp
  | it :: its, acc => by
      simp only [List.foldl, List.flatten]
      rw [concatMac_go its (acc ++ it)]
      simp

/-- C10: `concat!` accepts zero or more sequences and returns the eagerly
materialized collection holding every element of every input sequence, in
listed sequence order and, within each sequence, in that sequence's
element order (the flattening of the inputs); with zero sequences the
result is the empty collection. -/
theorem concat_flattens_in_order {T : Type} (its : List (List T)) :
    concatMac its = its.flatten ∧ concatMac ([] : List (List T)) = [] := by
  refine ⟨?_, rfl⟩
  simpa using concatMac_go its []

end KaguyaRs
